import Mathlib

/-!
Formal model of the Budgetizer transaction categorizer (`src/categorize.py`).

Python strings are modelled as `List Char`.  Python's `str.upper` / `str.lower`
are modelled by `Char.toUpper` / `Char.toLower` (faithful on the ASCII range,
which is the range exercised by transaction descriptions and keyword rules in
this program).  Python's `str.strip()` / `str.split()` and the regex class
`\s` all use CPython's unicode whitespace set, modelled by `pySpace`.
Fallible operations are modelled with `Option`.
-/

/-- Python's unicode whitespace set: the characters stripped by `str.strip()`,
used as separators by `str.split()`, and matched by the regex class `\s`. -/
def pySpace (c : Char) : Bool :=
  (9 ≤ c.toNat && c.toNat ≤ 13) || (28 ≤ c.toNat && c.toNat ≤ 32) ||
  c.toNat == 133 || c.toNat == 160 || c.toNat == 5760 ||
  (8192 ≤ c.toNat && c.toNat ≤ 8202) || c.toNat == 8232 || c.toNat == 8233 ||
  c.toNat == 8239 || c.toNat == 8287 || c.toNat == 12288

/-- Model of Python `str.strip()` (no arguments): remove leading and trailing
whitespace. -/
def pyStrip (s : List Char) : List Char :=
  ((s.dropWhile pySpace).reverse.dropWhile pySpace).reverse

/-- Model of Python `str.upper()` (ASCII range). -/
def pyUpper (s : List Char) : List Char := s.map Char.toUpper

/-- Model of Python `str.lower()` (ASCII range). -/
def pyLower (s : List Char) : List Char := s.map Char.toLower

/-- Model of Python `str.split()` (no arguments): split on runs of whitespace,
dropping empty pieces. -/
def pySplit (s : List Char) : List (List Char) :=
  (s.splitOnP pySpace).filter (fun t => !t.isEmpty)

/-- Model of Python `str.isdigit()` (ASCII range): nonempty and all digits. -/
def pyIsDigitStr (s : List Char) : Bool := !s.isEmpty && s.all Char.isDigit

/-- Numeric value of a list of decimal digit characters. -/
def digitsToNat (ds : List Char) : Nat := ds.foldl (fun n c => 10 * n + (c.toNat - 48)) 0

/-- Model of Python `int(s)` on its decimal core: strip whitespace, optional
sign, then decimal digits; `none` models a raised `ValueError`. -/
def pyToInt (s : List Char) : Option Int :=
  match pyStrip s with
  | [] => none
  | '-' :: ds => if !ds.isEmpty && ds.all Char.isDigit then some (-(digitsToNat ds : Int)) else none
  | '+' :: ds => if !ds.isEmpty && ds.all Char.isDigit then some ((digitsToNat ds : Int)) else none
  | ds => if ds.all Char.isDigit then some ((digitsToNat ds : Int)) else none

/-- Characters accepted as a word boundary by the classifier's wildcard regex
class `[\s\-_/]` in `categorize_transaction`: whitespace, hyphen, underscore
or slash. -/
def isWildBoundary (c : Char) : Bool := pySpace c || c == '-' || c == '_' || c == '/'

/-- Scanner for the regex search at interior positions: succeeds when some
character satisfying `cls` is immediately followed by the literal `base`. -/
def boundaryScan (cls : Char → Bool) (base : List Char) : List Char → Bool
  | [] => false
  | c :: rest => (cls c && decide (base <+: rest)) || boundaryScan cls base rest

/-- Model of `re.search(r'(^|[class])' + re.escape(base), s) is not None`,
parametric in the boundary character class: the literal `base` occurs at the
start of `s` or right after a class character. -/
def reSearchBoundary (cls : Char → Bool) (base s : List Char) : Bool :=
  decide (base <+: s) || boundaryScan cls base s

/-- Modelled from the spec: the literal boundary character set the spec names
for wildcard matching, exactly one of space, hyphen, underscore, slash (the
code's regex class is `[\s\-_/]`, whose `\s` is all of `pySpace`). -/
def specBoundaryChar (c : Char) : Bool := c == ' ' || c == '-' || c == '_' || c == '/'

/-- Matcher for the regex fragment `\d{2}/\d{2}` anchored at the head of the
list (two digits, a slash, two digits). -/
def ddSlashAt : List Char → Bool
  | a :: b :: '/' :: d :: e :: _ => a.isDigit && b.isDigit && d.isDigit && e.isDigit
  | _ => false

/-- Worker for `removeIdRuns`; the fuel argument (instantiated with the input
length) makes the recursion structural so that the model stays kernel
reducible.  At each position the first regex alternative `\d{6,}` is tried
(greedily consuming a maximal digit run of length at least 6), then
`\d{2}/\d{2}`; on a match the matched characters are deleted and scanning
resumes after them, otherwise the head character is kept. -/
def removeIdRunsAux : Nat → List Char → List Char
  | 0, _ => []
  | _, [] => []
  | fuel + 1, c :: rest =>
    let run := ((c :: rest).takeWhile Char.isDigit).length
    if 6 ≤ run then removeIdRunsAux fuel ((c :: rest).drop run)
    else if ddSlashAt (c :: rest) then removeIdRunsAux fuel ((c :: rest).drop 5)
    else c :: removeIdRunsAux fuel rest

/-- Model of `re.sub(r'\d{6,}|\d{2}/\d{2}', '', s)` in
`extract_keyword_from_description`: delete long digit runs and `DD/DD` date
tokens. -/
def removeIdRuns (s : List Char) : List Char := removeIdRunsAux s.length s

/-- The transaction-description prefixes stripped by
`extract_keyword_from_description`, in source order. -/
def prefixes_to_remove : List (List Char) :=
  ["POS PURCHASE - ".toList, "INTERAC PURCHASE - ".toList, "VISA DEBIT PURCHASE - ".toList,
   "E-TRANSFER ".toList, "BILL PAYMENT - ".toList, "PREAUTHORIZED DEBIT - ".toList]

/-- Sequentially strip each known transaction prefix (the Python loop checks
every prefix in order against the current string, so several can be removed). -/
def stripPrefixes (s : List Char) : List Char :=
  prefixes_to_remove.foldl (fun acc p => if p <+: acc then acc.drop p.length else acc) s

/-- The hardcoded known-brand list of `extract_keyword_from_description`, in
source order. -/
def common_brands : List (List Char) :=
  ["NETFLIX".toList, "SPOTIFY".toList, "AMAZON".toList, "UBER".toList, "AIRBNB".toList,
   "APPLE".toList, "STARBUCKS".toList, "TIM".toList, "COSTCO".toList, "WALMART".toList,
   "GOOGLE".toList, "MICROSOFT".toList, "PAYPAL".toList, "EBAY".toList, "FACEBOOK".toList,
   "ADOBE".toList, "DROPBOX".toList]

/-- The token list `parts` of `extract_keyword_from_description`: uppercase,
strip known prefixes, delete digit runs and date tokens, split on
whitespace. -/
def kwTokens (description : List Char) : List (List Char) :=
  pySplit (removeIdRuns (stripPrefixes (pyUpper description)))

/-- Model of `extract_keyword_from_description` from `src/categorize.py`. -/
def extract_keyword_from_description (description : List Char) : List Char :=
  match kwTokens description with
  | [] => pyStrip ((stripPrefixes (pyUpper description)).take 20)
  | first :: rest =>
    match common_brands.find? (fun b => decide (b <+: first)) with
    | some brand => brand ++ ['*']
    | none =>
      match ((first :: rest).take 3).filter (fun p => decide (2 < p.length) && !pyIsDigitStr p) with
      | [] => pyStrip ((stripPrefixes (pyUpper description)).take 20)
      | k0 :: ks =>
        let keyword := List.intercalate [' '] ((k0 :: ks).take 2)
        if decide (2 < (first :: rest).length) &&
            ((first :: rest).getLastD []).any Char.isDigit then
          if keyword.any (fun c => c == '*' || c == '#' || c == '@') then keyword
          else k0 ++ ['*']
        else keyword

/-- A keyword rule: one row of `categories.csv`. -/
structure Rule where
  keyword : List Char
  category : List Char
deriving DecidableEq, Repr

/-- Does one rule match a normalized (uppercased, stripped) description?  The
keyword is stripped; a keyword ending in `*` uses the word-boundary regex
search on its base, any other keyword is uppercased and matched as a plain
substring (`in`). -/
def matchesRule (du : List Char) (r : Rule) : Bool :=
  let kw := pyStrip r.keyword
  if kw.getLast? == some '*' then
    reSearchBoundary isWildBoundary kw.dropLast du
  else
    decide (pyUpper kw <:+: du)

/-- First-match-wins scan over the rule store. -/
def classifyGo (du : List Char) : List Rule → List Char
  | [] => "Uncategorized".toList
  | r :: rs => if matchesRule du r then r.category else classifyGo du rs

/-- Normalization applied to a description before rule matching:
`str(description).upper().strip()`. -/
def normDesc (d : List Char) : List Char := pyStrip (pyUpper d)

/-- Model of `categorize_transaction` from `src/categorize.py`; `none` models
a missing (`NaN`) description. -/
def categorize_transaction (description : Option (List Char)) (rules : List Rule) : List Char :=
  match description with
  | none => "Uncategorized".toList
  | some d => classifyGo (normDesc d) rules

/-- Wildcard rule on a stripped keyword ending in `*`. -/
def isWildRule (r : Rule) : Bool := (pyStrip r.keyword).getLast? == some '*'

/-! Characterization of the word-boundary regex search as an occurrence
statement, used to state the wildcard-matching claims. -/

/-- Unfolding lemma: a prefix is an existential split. -/
theorem prefix_iff_exists_suffix {α : Type} (l s : List α) : l <+: s ↔ ∃ t, s = l ++ t :=
  ⟨fun ⟨t, ht⟩ => ⟨t, ht.symm⟩, fun ⟨t, ht⟩ => ⟨t, ht.symm⟩⟩

/-- The interior scanner succeeds exactly when some class character followed
by the literal base occurs in the list. -/
theorem boundaryScan_iff (cls : Char → Bool) (base : List Char) :
    ∀ s, boundaryScan cls base s = true ↔
      ∃ pre c suf, cls c = true ∧ s = pre ++ c :: (base ++ suf) := by
  intro s
  induction s with
  | nil =>
    constructor
    · intro h
      simp [boundaryScan] at h
    · rintro ⟨pre, c, suf, _, h⟩
      cases pre <;> simp at h
  | cons a s' ih =>
    simp only [boundaryScan, Bool.or_eq_true, Bool.and_eq_true, decide_eq_true_eq,
      prefix_iff_exists_suffix, ih]
    constructor
    · rintro (⟨ha, suf, hsuf⟩ | ⟨pre, c, suf, hc, rfl⟩)
      · exact ⟨[], a, suf, ha, by simp [hsuf]⟩
      · exact ⟨a :: pre, c, suf, hc, rfl⟩
    · rintro ⟨pre, c, suf, hc, heq⟩
      cases pre with
      | nil =>
        simp only [List.nil_append, List.cons.injEq] at heq
        exact Or.inl ⟨heq.1 ▸ hc, suf, heq.2⟩
      | cons p pre' =>
        simp only [List.cons_append, List.cons.injEq] at heq
        exact Or.inr ⟨pre', c, suf, hc, heq.2⟩

/-- The regex search model succeeds exactly when the base occurs at the start
of the string or immediately after a boundary-class character. -/
theorem reSearchBoundary_iff (cls : Char → Bool) (base s : List Char) :
    reSearchBoundary cls base s = true ↔
      (∃ suf, s = base ++ suf) ∨
      ∃ pre c suf, cls c = true ∧ s = pre ++ c :: (base ++ suf) := by
  simp only [reSearchBoundary, Bool.or_eq_true, decide_eq_true_eq,
    prefix_iff_exists_suffix, boundaryScan_iff]

/-- Claim C1 counterexample: the claim limits the wildcard word boundary to
exactly space, hyphen, underscore or slash, but the code's regex class is
`[\s\-_/]` whose `\s` matches every whitespace character.  On a description
with a tab right before the base keyword the wildcard rule matches, although
the base is preceded neither by start-of-string nor by one of the claim's four
boundary characters, so the claimed "exactly when" equivalence fails here. -/
theorem c1_counterexample :
    categorize_transaction (some "ANTI\tNETFLIX".toList)
        [⟨"NETFLIX*".toList, "Streaming".toList⟩] = "Streaming".toList ∧
    isWildRule ⟨"NETFLIX*".toList, "Streaming".toList⟩ = true ∧
    ¬ ((∃ suf, normDesc "ANTI\tNETFLIX".toList = "NETFLIX".toList ++ suf) ∨
        ∃ pre c suf, specBoundaryChar c = true ∧
          normDesc "ANTI\tNETFLIX".toList = pre ++ c :: ("NETFLIX".toList ++ suf)) := by
  refine ⟨by decide, by decide, fun h => ?_⟩
  have hb := (reSearchBoundary_iff specBoundaryChar "NETFLIX".toList
      (normDesc "ANTI\tNETFLIX".toList)).2 h
  exact absurd hb (by decide)

/-- Claim C1 (amended): for a wildcard rule (stripped keyword ending in `*`)
whose category is not the literal "Uncategorized", classification against the
single-rule store returns the rule's category exactly when the base keyword
occurs in the uppercased, trimmed description preceded by start-of-string or
a boundary character, the boundary class being whitespace, hyphen, underscore
or slash; in particular "NETFLIX*" matches "NETFLIX.COM-5678" and
"NETFLIX CANADA" but does not match "ANTINETFLIXSHOP". -/
theorem c1_wildcard_boundary :
    (∀ (kw cat desc : List Char),
      (pyStrip kw).getLast? = some '*' →
      cat ≠ "Uncategorized".toList →
      (categorize_transaction (some desc) [⟨kw, cat⟩] = cat ↔
        (∃ suf, normDesc desc = (pyStrip kw).dropLast ++ suf) ∨
        ∃ pre c suf, isWildBoundary c = true ∧
          normDesc desc = pre ++ c :: ((pyStrip kw).dropLast ++ suf))) ∧
    categorize_transaction (some "NETFLIX.COM-5678".toList)
        [⟨"NETFLIX*".toList, "Streaming".toList⟩] = "Streaming".toList ∧
    categorize_transaction (some "NETFLIX CANADA".toList)
        [⟨"NETFLIX*".toList, "Streaming".toList⟩] = "Streaming".toList ∧
    categorize_transaction (some "ANTINETFLIXSHOP".toList)
        [⟨"NETFLIX*".toList, "Streaming".toList⟩] = "Uncategorized".toList := by
  refine ⟨?_, by decide, by decide, by decide⟩
  intro kw cat desc h1 h2
  have hiff := reSearchBoundary_iff isWildBoundary (pyStrip kw).dropLast (normDesc desc)
  have hmr : matchesRule (normDesc desc) ⟨kw, cat⟩ =
      reSearchBoundary isWildBoundary (pyStrip kw).dropLast (normDesc desc) := by
    simp [matchesRule, h1]
  simp only [categorize_transaction, classifyGo, hmr]
  cases hs : reSearchBoundary isWildBoundary (pyStrip kw).dropLast (normDesc desc) with
  | true => exact iff_of_true (by simp [hs]) (hiff.mp hs)
  | false =>
    refine iff_of_false (fun hl => h2 ?_) (fun h => by simp [hiff.mpr h] at hs)
    simp [hs] at hl
    exact hl.symm

/-- Claim C5 counterexample: for the two-token description "MANDY X12" the
last original token contains a digit and the extracted candidate keyword
contains none of the wildcard marker characters, yet the result is the full
candidate, not the collapsed first token with `*`: the code only collapses
when the description has more than two cleaned tokens. -/
theorem c5_counterexample :
    extract_keyword_from_description "MANDY X12".toList = "MANDY X12".toList ∧
    "MANDY X12".toList ≠ "MANDY".toList ++ ['*'] ∧
    ((kwTokens "MANDY X12".toList).getLastD []).any Char.isDigit = true ∧
    List.intercalate [' ']
        ((((kwTokens "MANDY X12".toList).take 3).filter
            (fun p => decide (2 < p.length) && !pyIsDigitStr p)).take 2)
      = "MANDY X12".toList ∧
    ("MANDY X12".toList).any (fun c => c == '*' || c == '#' || c == '@') = false := by
  decide

/-- Claim C5 (amended): when the description has more than two cleaned tokens,
its first token does not start with a known brand, the last cleaned token
contains a digit, at least one token survives the length/digit filter and the
candidate keyword contains none of the characters `*`, `#`, `@`, then the
extractor collapses the candidate to the first surviving token followed by
`*`; in particular extractKeyword "TIM HORTONS #1234" yields the wildcard
form "TIM*". -/
theorem c5_collapse :
    (∀ (desc first k0 : List Char) (rest ks : List (List Char)),
      kwTokens desc = first :: rest →
      common_brands.find? (fun b => decide (b <+: first)) = none →
      2 < (first :: rest).length →
      ((first :: rest).getLastD []).any Char.isDigit = true →
      ((first :: rest).take 3).filter (fun p => decide (2 < p.length) && !pyIsDigitStr p)
        = k0 :: ks →
      (List.intercalate [' '] ((k0 :: ks).take 2)).any
          (fun c => c == '*' || c == '#' || c == '@') = false →
      extract_keyword_from_description desc = k0 ++ ['*']) ∧
    extract_keyword_from_description "TIM HORTONS #1234".toList = "TIM*".toList := by
  refine ⟨?_, by decide⟩
  intro desc first k0 rest ks h1 hbrand hlen hdig hkps hmark
  simp only [extract_keyword_from_description, h1, hbrand, hkps, hmark, hdig,
    decide_eq_true hlen, Bool.and_self, if_true, Bool.false_eq_true, if_false]

/-- Claim C6: when the first cleaned token of a description starts with an
entry of the known-brand list, the extractor returns that brand immediately
followed by `*`; in particular extractKeyword "NETFLIX.COM-5678" is
"NETFLIX*".  The brand is unique because no list entry is a proper prefix of
another. -/
theorem c6_brand_wildcard :
    (∀ (desc b first : List Char) (rest : List (List Char)),
      kwTokens desc = first :: rest →
      b ∈ common_brands →
      b <+: first →
      extract_keyword_from_description desc = b ++ ['*']) ∧
    extract_keyword_from_description "NETFLIX.COM-5678".toList = "NETFLIX*".toList := by
  refine ⟨?_, by decide⟩
  intro desc b first rest h1 hb hpre
  cases hfind : common_brands.find? (fun b' => decide (b' <+: first)) with
  | none =>
    rw [List.find?_eq_none] at hfind
    exact absurd (decide_eq_true hpre) (hfind b hb)
  | some b' =>
    have hb'mem : b' ∈ common_brands := List.mem_of_find?_eq_some hfind
    have hps := List.find?_some hfind
    simp only [decide_eq_true_eq] at hps
    have hb'pre : b' <+: first := hps
    have hanti : ∀ x ∈ common_brands, ∀ y ∈ common_brands, x <+: y → x = y := by decide
    have heq : b' = b := by
      rcases List.prefix_or_prefix_of_prefix hb'pre hpre with h | h
      · exact hanti b' hb'mem b hb h
      · exact (hanti b hb b' hb'mem h).symm
    simp only [extract_keyword_from_description, h1, hfind, heq]

/-- Claim C7: a missing description classifies as "Uncategorized" for every
rule store, and so does a description matched by no rule; the model is a total
function, so neither case can raise. -/
theorem c7_no_match_uncategorized :
    ∀ (rules : List Rule) (d : List Char),
      categorize_transaction none rules = "Uncategorized".toList ∧
      ((∀ r ∈ rules, matchesRule (normDesc d) r = false) →
        categorize_transaction (some d) rules = "Uncategorized".toList) := by
  intro rules d
  refine ⟨rfl, ?_⟩
  show (∀ r ∈ rules, matchesRule (normDesc d) r = false) →
    classifyGo (normDesc d) rules = "Uncategorized".toList
  induction rules with
  | nil => intro _; rfl
  | cons r rs ih =>
    intro hall
    simp only [classifyGo, hall r (List.mem_cons_self r rs), Bool.false_eq_true, if_false]
    exact ih fun r' hr' => hall r' (List.mem_cons_of_mem r hr')

/-- Claim C1 witness: the amended equivalence instantiated at a concrete
wildcard rule and matching description. -/
theorem c1_wildcard_boundary_witness :
    categorize_transaction (some "NETFLIX CANADA".toList)
        [⟨"NETFLIX*".toList, "Streaming".toList⟩] = "Streaming".toList :=
  (c1_wildcard_boundary.1 "NETFLIX*".toList "Streaming".toList "NETFLIX CANADA".toList
      (by decide) (by decide)).2 (Or.inl ⟨" CANADA".toList, by decide⟩)

/-- Claim C5 witness: the amended collapse rule instantiated at a concrete
three-token description with a digit-bearing final token. -/
theorem c5_collapse_witness :
    extract_keyword_from_description "AAA BBB C1".toList = "AAA".toList ++ ['*'] :=
  c5_collapse.1 "AAA BBB C1".toList "AAA".toList "AAA".toList
    ["BBB".toList, "C1".toList] ["BBB".toList]
    (by decide) (by decide) (by decide) (by decide) (by decide) (by decide)

/-- Claim C6 witness: the brand rule instantiated at a concrete description
whose first token starts with a known brand. -/
theorem c6_brand_wildcard_witness :
    extract_keyword_from_description "SPOTIFY P2AE7E4B5A".toList = "SPOTIFY".toList ++ ['*'] :=
  c6_brand_wildcard.1 "SPOTIFY P2AE7E4B5A".toList "SPOTIFY".toList "SPOTIFY".toList
    ["P2AE7E4B5A".toList] (by decide) (by decide) (by decide)

/-- Claim C7 witness: a concrete store and description where no rule matches. -/
theorem c7_no_match_uncategorized_witness :
    categorize_transaction (some "GROCERY STORE".toList)
        [⟨"NETFLIX*".toList, "Streaming".toList⟩] = "Uncategorized".toList :=
  (c7_no_match_uncategorized [⟨"NETFLIX*".toList, "Streaming".toList⟩]
      "GROCERY STORE".toList).2 (by decide)

/-- Rule scanning is first-match-wins: if some rule at index `i` matches, the
result is the category of the earliest matching rule. -/
theorem classifyGo_first (du : List Char) :
    ∀ (rules : List Rule) (i : Nat) (hi : i < rules.length),
      matchesRule du rules[i] = true →
      ∃ j, ∃ hj : j < rules.length, j ≤ i ∧ matchesRule du rules[j] = true ∧
        (∀ k (hk : k < rules.length), k < j → matchesRule du rules[k] = false) ∧
        classifyGo du rules = (rules[j]).category := by
  intro rules
  induction rules with
  | nil => intro i hi; exact absurd hi (Nat.not_lt_zero i)
  | cons r rs ih =>
    intro i hi hm
    cases hmr : matchesRule du r with
    | true =>
      refine ⟨0, Nat.succ_pos _, Nat.zero_le i, by simpa using hmr, ?_, by simp [classifyGo, hmr]⟩
      intro k hk hk0
      exact absurd hk0 (Nat.not_lt_zero k)
    | false =>
      cases i with
      | zero => rw [show (r :: rs)[0] = r from rfl] at hm; rw [hm] at hmr; cases hmr
      | succ i' =>
        have hi' : i' < rs.length := Nat.lt_of_succ_lt_succ hi
        have hm' : matchesRule du rs[i'] = true := by simpa using hm
        obtain ⟨j, hj, hji, hjm, hmin, hres⟩ := ih i' hi' hm'
        refine ⟨j + 1, Nat.succ_lt_succ hj, Nat.succ_le_succ hji, by simpa using hjm, ?_, ?_⟩
        · intro k hk hkj
          cases k with
          | zero => simpa using hmr
          | succ k' =>
            have := hmin k' (Nat.lt_of_succ_lt_succ hk) (Nat.lt_of_succ_lt_succ hkj)
            simpa using this
        · simp only [classifyGo, hmr, Bool.false_eq_true, if_false]
          simpa using hres

/-- Claim C2: for a non-wildcard rule at index `i` whose stripped, uppercased
keyword occurs as a plain substring of the normalized description,
classification returns the category of the earliest matching rule, which is
at an index no later than `i`; store order is the only tie-break. -/
theorem c2_exact_first_match :
    ∀ (rules : List Rule) (desc : List Char) (i : Nat) (hi : i < rules.length),
      isWildRule rules[i] = false →
      pyUpper (pyStrip (rules[i]).keyword) <:+: normDesc desc →
      ∃ j, ∃ hj : j < rules.length, j ≤ i ∧ matchesRule (normDesc desc) rules[j] = true ∧
        (∀ k (hk : k < rules.length), k < j → matchesRule (normDesc desc) rules[k] = false) ∧
        categorize_transaction (some desc) rules = (rules[j]).category := by
  intro rules desc i hi hw hinf
  have hw' : ((pyStrip (rules[i]).keyword).getLast? == some '*') = false := hw
  have hm : matchesRule (normDesc desc) rules[i] = true := by
    simp only [matchesRule, hw', Bool.false_eq_true, if_false, decide_eq_true_eq]
    exact hinf
  exact classifyGo_first (normDesc desc) rules i hi hm

/-- Claim C2 witness: a two-rule store where only the second (non-wildcard)
rule matches; the earliest matching rule is that one and its category is
returned. -/
theorem c2_exact_first_match_witness :
    categorize_transaction (some "PAYPAL PURCHASE".toList)
        [⟨"UBER".toList, "Transportation".toList⟩, ⟨"PAYPAL".toList, "Shopping".toList⟩]
      = "Shopping".toList := by
  obtain ⟨j, hj, hji, hjm, hmin, hres⟩ := c2_exact_first_match
      [⟨"UBER".toList, "Transportation".toList⟩, ⟨"PAYPAL".toList, "Shopping".toList⟩]
      "PAYPAL PURCHASE".toList 1 (by decide) (by decide) (by decide)
  cases j with
  | zero =>
    have hjm0 : matchesRule (normDesc "PAYPAL PURCHASE".toList)
        ⟨"UBER".toList, "Transportation".toList⟩ = true := by simpa using hjm
    exact absurd hjm0 (by decide)
  | succ j' =>
    cases j' with
    | zero => simpa using hres
    | succ j'' => exact absurd hj (by omega)

/-- Outcome of one call to the interactive labeling prompt: a chosen category,
an explicit save-and-exit request, a skip, or exhaustion of the scripted user
input (a further `input()` in Python would raise end-of-file). -/
inductive IResult where
  | category (c : List Char)
  | exitSave
  | skipped
  | noInput
deriving DecidableEq, Repr

/-- Environment of one oracle consultation in `guess_category_with_ai`:
whether the API key environment variable is set, the HTTP outcome (`none`
models a raised network or parse exception, otherwise status code and the
suggestion text), and the canonical category list returned by
`get_available_categories`. -/
structure OracleEnv where
  hasKey : Bool
  response : Option (Nat × List Char)
  cats : List (List Char)
deriving DecidableEq, Repr

/-- Model of `guess_category_with_ai` from `src/categorize.py`: fail without
credentials, on an exception, on a status other than 200, or when the
stripped suggestion text is not exactly one of the canonical categories. -/
def guess_category_with_ai (env : OracleEnv) : Option (List Char) :=
  if env.hasKey = false then none
  else
    match env.response with
    | none => none
    | some (status, text) =>
      if status = 200 then
        let category := pyStrip text
        if category ∈ env.cats then some category else none
      else none

/-- Model of the manual-selection loop of choice 1 in `interactive_categorize`
(a number, the word 'new' with a follow-up name, or the word 'exit'),
consuming scripted `input()` results. -/
def manualSelectLoop (cats : List (List Char)) : List (List Char) → IResult
  | [] => .noInput
  | inp :: rest =>
    let c := pyStrip inp
    if pyLower c = "exit".toList then .exitSave
    else if pyLower c = "new".toList then
      match rest with
      | [] => .noInput
      | nm :: rest2 =>
        let n := pyStrip nm
        if n.isEmpty then manualSelectLoop cats rest2 else .category n
    else
      match pyToInt c with
      | some k =>
        if k - 1 < 0 then manualSelectLoop cats rest
        else
          match cats.get? (k - 1).toNat with
          | some cat => .category cat
          | none => manualSelectLoop cats rest
      | none => manualSelectLoop cats rest

/-- Model of the number-only fallback loop entered when the oracle fails in
choice 2 of `interactive_categorize` (no 'new' or 'exit' handling there). -/
def manualNumLoop (cats : List (List Char)) : List (List Char) → IResult
  | [] => .noInput
  | inp :: rest =>
    match pyToInt (pyStrip inp) with
    | some k =>
      if k - 1 < 0 then manualNumLoop cats rest
      else
        match cats.get? (k - 1).toNat with
        | some cat => .category cat
        | none => manualNumLoop cats rest
    | none => manualNumLoop cats rest

/-- Model of `interactive_categorize` from `src/categorize.py`, driven by a
script of `input()` results.  Choice 2 consults the oracle: an accepted
suggestion is returned, a declined one re-enters the prompt recursively
exactly as the source does, and a failed oracle call falls into the
number-only manual loop.  Any choice other than 1, 2 or 4 is a skip. -/
def interactive_categorize (env : OracleEnv) : List (List Char) → IResult
  | [] => .noInput
  | choice :: rest =>
    let c := pyStrip choice
    if c = "1".toList then manualSelectLoop env.cats rest
    else if c = "2".toList then
      match guess_category_with_ai env with
      | some s =>
        match rest with
        | [] => .noInput
        | confirm :: rest2 =>
          if pyLower (pyStrip confirm) = "n".toList then interactive_categorize env rest2
          else .category s
      | none => manualNumLoop env.cats rest
    else if c = "4".toList then .exitSave
    else .skipped

/-- Claim C8: every oracle failure (no credentials, raised network error,
non-2xx response, or a suggestion not exactly equal to a canonical category)
yields no accepted suggestion, and the AI branch falls into manual category
selection; a successful suggestion that the human declines re-enters the
selection prompt.  All the modelled functions are total, so an oracle failure
is never fatal to the run. -/
theorem c8_oracle_fallback :
    ∀ (env : OracleEnv) (status : Nat) (body s confirm : List Char)
      (rest : List (List Char)),
      (env.hasKey = false → guess_category_with_ai env = none) ∧
      (env.response = none → guess_category_with_ai env = none) ∧
      (env.response = some (status, body) → ¬ (200 ≤ status ∧ status ≤ 299) →
        guess_category_with_ai env = none) ∧
      (env.response = some (status, body) → pyStrip body ∉ env.cats →
        guess_category_with_ai env = none) ∧
      (guess_category_with_ai env = none →
        interactive_categorize env ("2".toList :: rest) = manualNumLoop env.cats rest) ∧
      (guess_category_with_ai env = some s → pyLower (pyStrip confirm) = "n".toList →
        interactive_categorize env ("2".toList :: confirm :: rest)
          = interactive_categorize env rest) := by
  intro env status body s confirm rest
  refine ⟨?_, ?_, ?_, ?_, ?_, ?_⟩
  · intro h
    simp [guess_category_with_ai, h]
  · intro h
    simp [guess_category_with_ai, h]
  · intro h hst
    have h200 : ¬ status = 200 := by omega
    simp [guess_category_with_ai, h, h200]
  · intro h hmem
    simp [guess_category_with_ai, h, hmem]
  · intro h
    simp only [interactive_categorize]
    rw [if_neg (by decide), if_pos (by decide), h]
  · intro hg hn
    simp only [interactive_categorize]
    rw [if_neg (by decide), if_pos (by decide), hg]
    simp [hn]

/-- Claim C8 witness: a concrete environment with no credentials; the oracle
yields no suggestion and the AI branch lands in the manual loop. -/
theorem c8_oracle_fallback_witness :
    guess_category_with_ai ⟨false, none, []⟩ = none ∧
    interactive_categorize ⟨false, none, []⟩ ["2".toList]
      = manualNumLoop ([] : List (List Char)) [] := by
  have h := c8_oracle_fallback ⟨false, none, []⟩ 0 [] [] [] []
  exact ⟨h.1 rfl, h.2.2.2.2.1 (h.1 rfl)⟩

/-- One scripted outcome of the interactive labeling prompt, as consumed by
the `process_files` loop: a category assignment (manual pick or accepted AI
suggestion), a skip, or the save-and-exit request. -/
inductive Decision where
  | assign (c : List Char)
  | skip
  | exitSave
deriving DecidableEq, Repr

/-- State of the interactive pass of `process_files`: the evolving rule
store, the `uncategorized_descriptions` set, the key set of the
`categorized_descriptions` dict, the log of descriptions for which the
labeling prompt has been invoked (with multiplicity), the remaining scripted
decisions, and the early-exit flag. -/
structure SessState where
  rules : List Rule
  uncat : List (List Char)
  catKeys : List (List Char)
  promptLog : List (List Char)
  decisions : List Decision
  earlyExit : Bool
deriving Repr

/-- One iteration of the `process_files` interactive loop on a row's
description (`none` models a missing one).  A visit prompts only when the
description is not an already-categorized key, classifies as "Uncategorized"
under the current rules, and is not yet in the uncategorized set; the
description is added to that set, the prompt consumes one scripted decision
(an exhausted script acts as a skip), and an assignment appends a rule built
from the uppercased extracted keyword and records the description as
categorized.  After an exit decision the remaining rows are not visited. -/
def processRow (st : SessState) (desc : Option (List Char)) : SessState :=
  if st.earlyExit then st
  else
    match desc with
    | none => st
    | some d =>
      if d ∈ st.catKeys then st
      else if categorize_transaction (some d) st.rules = "Uncategorized".toList
          ∧ d ∉ st.uncat then
        match st.decisions with
        | [] => { st with uncat := d :: st.uncat, promptLog := st.promptLog ++ [d] }
        | .exitSave :: restD =>
          { st with
              uncat := d :: st.uncat
              promptLog := st.promptLog ++ [d]
              decisions := restD
              earlyExit := true }
        | .skip :: restD =>
          { st with
              uncat := d :: st.uncat
              promptLog := st.promptLog ++ [d]
              decisions := restD }
        | .assign c :: restD =>
          { st with
              uncat := d :: st.uncat
              promptLog := st.promptLog ++ [d]
              decisions := restD
              rules := st.rules ++ [⟨pyUpper (extract_keyword_from_description d), c⟩]
              catKeys := d :: st.catKeys }
      else st

/-- The interactive pass of `process_files` over all rows of the batch. -/
def processRows (rows : List (Option (List Char))) (st : SessState) : SessState :=
  rows.foldl processRow st

/-- Initial session state of one `process_files` run: empty memoization
structures and no prompts yet. -/
def initSession (rules : List Rule) (decisions : List Decision) : SessState :=
  ⟨rules, [], [], [], decisions, false⟩

/-- Step invariant of the interactive pass: the prompt log stays duplicate
free and is contained in the uncategorized set. -/
theorem processRow_inv (st : SessState) (desc : Option (List Char))
    (h1 : st.promptLog.Nodup) (h2 : ∀ x ∈ st.promptLog, x ∈ st.uncat) :
    (processRow st desc).promptLog.Nodup ∧
      ∀ x ∈ (processRow st desc).promptLog, x ∈ (processRow st desc).uncat := by
  unfold processRow
  split
  · exact ⟨h1, h2⟩
  · split
    · exact ⟨h1, h2⟩
    · rename_i d
      split
      · exact ⟨h1, h2⟩
      · split
        · rename_i hcond
          have hd : d ∉ st.promptLog := fun hmem => hcond.2 (h2 d hmem)
          have hlog : (st.promptLog ++ [d]).Nodup := by
            simp [List.nodup_append, h1, hd]
          have hsub : ∀ x ∈ st.promptLog ++ [d], x ∈ d :: st.uncat := by
            intro x hx
            rcases List.mem_append.1 hx with hx | hx
            · exact List.mem_cons_of_mem _ (h2 x hx)
            · simp only [List.mem_singleton] at hx
              simp [hx]
          split
          · exact ⟨hlog, hsub⟩
          · exact ⟨hlog, hsub⟩
          · exact ⟨hlog, hsub⟩
          · exact ⟨hlog, hsub⟩
        · exact ⟨h1, h2⟩

/-- The invariant carries over the whole batch. -/
theorem processRows_inv (rows : List (Option (List Char))) :
    ∀ st : SessState, st.promptLog.Nodup → (∀ x ∈ st.promptLog, x ∈ st.uncat) →
      (processRows rows st).promptLog.Nodup ∧
        ∀ x ∈ (processRows rows st).promptLog, x ∈ (processRows rows st).uncat := by
  induction rows with
  | nil => intro st h1 h2; exact ⟨h1, h2⟩
  | cons r rows ih =>
    intro st h1 h2
    have h := processRow_inv st r h1 h2
    exact ih (processRow st r) h.1 h.2

/-- A duplicate-free list holds any element at most once. -/
theorem count_le_one_of_nodup {α : Type} [BEq α] [LawfulBEq α] {l : List α}
    (h : l.Nodup) (a : α) : l.count a ≤ 1 := by
  induction l with
  | nil => simp
  | cons x l ih =>
    rcases List.nodup_cons.1 h with ⟨hx, hl⟩
    rw [List.count_cons]
    by_cases hax : (x == a) = true
    · have hxa : x = a := eq_of_beq hax
      have hz : l.count a = 0 := List.count_eq_zero.2 (fun hmem => hx (hxa ▸ hmem))
      simp [hz, hax]
    · rw [if_neg hax]
      simpa using ih hl

/-- Claim C9: during one interactive run, the labeling prompt is invoked at
most once per exact description string, however each visit ended (new rule,
skip, failed self-check or exit); the memoization is keyed by the exact
description. -/
theorem c9_prompt_once (rows : List (Option (List Char))) (decisions : List Decision)
    (rules : List Rule) (d : List Char) :
    ((processRows rows (initSession rules decisions)).promptLog).count d ≤ 1 := by
  have h := processRows_inv rows (initSession rules decisions)
      (by simp [initSession]) (by simp [initSession])
  exact count_le_one_of_nodup h.1 d

/-- A normalized ledger row as merged by `main`.  A date of `none` models a
NaT produced by `pd.to_datetime(..., errors="coerce")`; the date is otherwise
an ordinal day number and the amount a scaled integer (the dedup key compares
amounts by exact equality). -/
structure Tx where
  date : Option Int
  description : String
  amount : Int
  source : String
  account : String
  category : String
deriving DecidableEq, Repr

/-- The five-field identity key used by
`drop_duplicates(subset=["Date","Description","Amount","Source","Account"])`. -/
def txKey (t : Tx) : Option Int × String × Int × String × String :=
  (t.date, t.description, t.amount, t.source, t.account)

/-- Does some row of `l` share the identity key of `t`? -/
def keyIn (t : Tx) (l : List Tx) : Bool := l.any (fun u => decide (txKey u = txKey t))

/-- Model of `drop_duplicates(subset=[...], keep='last')`: keep exactly the
rows that have no later row with the same identity key, in original order. -/
def dropDupKeepLast : List Tx → List Tx
  | [] => []
  | t :: ts => if keyIn t ts then dropDupKeepLast ts else t :: dropDupKeepLast ts

/-- Date comparison used by `sort_values('Date')`: ascending with unparsable
dates (`none`, pandas NaT) placed last. -/
def dateLE (a b : Tx) : Bool :=
  match a.date, b.date with
  | _, none => true
  | none, some _ => false
  | some x, some y => decide (x ≤ y)

/-- The sort relation as a proposition. -/
def txLE (a b : Tx) : Prop := dateLE a b = true

instance : DecidableRel txLE := fun a b => inferInstanceAs (Decidable (dateLE a b = true))

/-- Model of the ledger sort `combined.sort_values('Date')`: a deterministic
date-ascending sort with unparsable dates last.  Pandas sorts on the single
Date column with its default quicksort, whose order among rows with equal
dates is implementation defined; the model fixes a stable tie order.  The
results below about merged ledgers are insensitive to the tie order, except
`mergeLedger_idempotent_stable_model`, which is explicitly a property of the
stable model. -/
def sortByDate (l : List Tx) : List Tx := List.insertionSort txLE l

/-- Model of the merge step of `main` (lines 699 to 704): concatenate the
existing ledger and the new batch (existing first), deduplicate on the
identity key keeping the last occurrence, and sort by date. -/
def mergeLedger (master newData : List Tx) : List Tx :=
  sortByDate (dropDupKeepLast (master ++ newData))

/-- The date order is total. -/
theorem txLE_total : ∀ a b : Tx, txLE a b ∨ txLE b a := by
  intro a b
  rcases ha : a.date with _ | x <;> rcases hb : b.date with _ | y <;>
    simp [txLE, dateLE, ha, hb]
  exact Int.le_total x y

/-- The date order is transitive. -/
theorem txLE_trans : ∀ {a b c : Tx}, txLE a b → txLE b c → txLE a c := by
  intro a b c hab hbc
  rcases ha : a.date with _ | x <;> rcases hb : b.date with _ | y <;>
    rcases hc : c.date with _ | z <;>
    simp_all [txLE, dateLE] <;> omega

/-- Two rows below each other in both directions have equal dates. -/
theorem txLE_tie {a b : Tx} (h1 : txLE a b) (h2 : txLE b a) : a.date = b.date := by
  rcases ha : a.date with _ | x <;> rcases hb : b.date with _ | y <;>
    simp_all [txLE, dateLE] <;> omega

instance : IsTotal Tx txLE := ⟨txLE_total⟩

instance : IsTrans Tx txLE := ⟨fun _ _ _ => txLE_trans⟩

/-- Claim C10: in the merged ledger, every row with an unparsable date is
placed after all rows with parsable dates; the sort is a total function, so
it cannot fail on such rows. -/
theorem c10_unparsable_dates_last (L B : List Tx) :
    List.Pairwise (fun a b => a.date = none → b.date = none) (mergeLedger L B) := by
  have hs : List.Pairwise txLE (mergeLedger L B) :=
    List.sorted_insertionSort txLE (dropDupKeepLast (L ++ B))
  refine hs.imp ?_
  intro a b hab hna
  rcases hb : b.date with _ | y
  · rfl
  · rw [txLE, dateLE, hna, hb] at hab
    cases hab

/-- After appending `t`, deduplication keeps exactly `t` among the rows that
share its identity key. -/
theorem dropDup_filter_key (t : Tx) : ∀ L : List Tx,
    (dropDupKeepLast (L ++ [t])).filter (fun r => decide (txKey r = txKey t)) = [t] := by
  intro L
  induction L with
  | nil => simp [dropDupKeepLast, keyIn]
  | cons x L ih =>
    show (dropDupKeepLast (x :: (L ++ [t]))).filter _ = [t]
    by_cases hk : keyIn x (L ++ [t]) = true
    · simp only [dropDupKeepLast, hk, if_true]
      exact ih
    · have hxt : ¬ (txKey x = txKey t) := by
        intro he
        apply hk
        unfold keyIn
        rw [List.any_eq_true]
        exact ⟨t, by simp, by simp [he]⟩
      simp only [dropDupKeepLast, hk, Bool.false_eq_true, if_false, List.filter_cons,
        decide_eq_true_eq]
      rw [if_neg hxt]
      exact ih

/-- Claim C3: merging a batch containing a single transaction `t` into a
ledger that already holds a row with the same identity key leaves exactly one
row with that key, namely `t` itself (so its category is the new one). -/
theorem c3_merge_last_wins (L : List Tx) (t : Tx) :
    (∃ r ∈ L, txKey r = txKey t) →
    (mergeLedger L [t]).filter (fun r => decide (txKey r = txKey t)) = [t] := by
  intro _
  have hperm : List.Perm (mergeLedger L [t]) (dropDupKeepLast (L ++ [t])) :=
    List.perm_insertionSort txLE _
  have hf := hperm.filter (fun r => decide (txKey r = txKey t))
  rw [dropDup_filter_key t L] at hf
  exact List.perm_singleton.1 hf

/-- Claim C3 witness: a concrete one-row ledger with key K and category "B"
merged with the same key recategorized as "A". -/
theorem c3_merge_last_wins_witness :
    (mergeLedger [⟨some 10, "SHOP", -5, "Bank", "Chequing", "B"⟩]
        [⟨some 10, "SHOP", -5, "Bank", "Chequing", "A"⟩]).filter
      (fun r => decide (txKey r = txKey ⟨some 10, "SHOP", -5, "Bank", "Chequing", "A"⟩))
      = [⟨some 10, "SHOP", -5, "Bank", "Chequing", "A"⟩] :=
  c3_merge_last_wins [⟨some 10, "SHOP", -5, "Bank", "Chequing", "B"⟩]
    ⟨some 10, "SHOP", -5, "Bank", "Chequing", "A"⟩
    ⟨⟨some 10, "SHOP", -5, "Bank", "Chequing", "B"⟩, by simp, by rfl⟩

/-- Key membership distributes over append. -/
theorem keyIn_append (t : Tx) (P Q : List Tx) :
    keyIn t (P ++ Q) = (keyIn t P || keyIn t Q) := by
  unfold keyIn
  rw [List.any_append]

/-- Deduplication of an append: the left part keeps its survivors whose keys
do not reappear on the right, the right part is deduplicated on its own. -/
theorem dropDup_append (P Q : List Tx) :
    dropDupKeepLast (P ++ Q)
      = (dropDupKeepLast P).filter (fun t => !keyIn t Q) ++ dropDupKeepLast Q := by
  induction P with
  | nil => simp [dropDupKeepLast]
  | cons p P ih =>
    show dropDupKeepLast (p :: (P ++ Q)) = _
    have hsplit := keyIn_append p P Q
    by_cases h1 : keyIn p P = true
    · have hPQ : keyIn p (P ++ Q) = true := by rw [hsplit, h1]; simp
      rw [show dropDupKeepLast (p :: (P ++ Q)) = dropDupKeepLast (P ++ Q) from by
            simp [dropDupKeepLast, hPQ],
          show dropDupKeepLast (p :: P) = dropDupKeepLast P from by
            simp [dropDupKeepLast, h1]]
      exact ih
    · have h1' : keyIn p P = false := by revert h1; cases keyIn p P <;> simp
      by_cases h2 : keyIn p Q = true
      · have hPQ : keyIn p (P ++ Q) = true := by rw [hsplit, h2]; simp
        rw [show dropDupKeepLast (p :: (P ++ Q)) = dropDupKeepLast (P ++ Q) from by
              simp [dropDupKeepLast, hPQ],
            show dropDupKeepLast (p :: P) = p :: dropDupKeepLast P from by
              simp [dropDupKeepLast, h1'],
            ih, List.filter_cons]
        simp [h2]
      · have h2' : keyIn p Q = false := by revert h2; cases keyIn p Q <;> simp
        have hPQ : keyIn p (P ++ Q) = false := by rw [hsplit, h1', h2']; rfl
        rw [show dropDupKeepLast (p :: (P ++ Q)) = p :: dropDupKeepLast (P ++ Q) from by
              simp [dropDupKeepLast, hPQ],
            show dropDupKeepLast (p :: P) = p :: dropDupKeepLast P from by
              simp [dropDupKeepLast, h1'],
            ih, List.filter_cons]
        simp [h2']

/-- Every surviving row was in the input. -/
theorem mem_of_mem_dropDup {t : Tx} : ∀ {l : List Tx}, t ∈ dropDupKeepLast l → t ∈ l := by
  intro l
  induction l with
  | nil => intro h; exact absurd h (List.not_mem_nil t)
  | cons x l ih =>
    intro h
    by_cases hk : keyIn x l = true
    · rw [show dropDupKeepLast (x :: l) = dropDupKeepLast l from by
          simp [dropDupKeepLast, hk]] at h
      exact List.mem_cons_of_mem x (ih h)
    · rw [show dropDupKeepLast (x :: l) = x :: dropDupKeepLast l from by
          simp [dropDupKeepLast, hk]] at h
      rcases List.mem_cons.1 h with h | h
      · exact h ▸ List.mem_cons_self x l
      · exact List.mem_cons_of_mem x (ih h)

/-- The surviving rows have pairwise distinct identity keys. -/
theorem nodup_keys_dropDup : ∀ l : List Tx, ((dropDupKeepLast l).map txKey).Nodup := by
  intro l
  induction l with
  | nil => simp [dropDupKeepLast]
  | cons x l ih =>
    by_cases hk : keyIn x l = true
    · rw [show dropDupKeepLast (x :: l) = dropDupKeepLast l from by
          simp [dropDupKeepLast, hk]]
      exact ih
    · rw [show dropDupKeepLast (x :: l) = x :: dropDupKeepLast l from by
          simp [dropDupKeepLast, hk]]
      rw [List.map_cons, List.nodup_cons]
      refine ⟨?_, ih⟩
      intro hmem
      rcases List.mem_map.1 hmem with ⟨u, hu, hku⟩
      apply hk
      unfold keyIn
      rw [List.any_eq_true]
      exact ⟨u, mem_of_mem_dropDup hu, by simp [hku]⟩

/-- A list with pairwise distinct keys is already deduplicated. -/
theorem dropDup_eq_self_of_nodup_keys : ∀ {l : List Tx},
    (l.map txKey).Nodup → dropDupKeepLast l = l := by
  intro l
  induction l with
  | nil => intro _; rfl
  | cons x l ih =>
    intro h
    rw [List.map_cons, List.nodup_cons] at h
    obtain ⟨hx, hl⟩ := h
    have hk : keyIn x l = false := by
      cases hco : keyIn x l
      · rfl
      · exfalso
        rcases List.any_eq_true.1 hco with ⟨u, hu, hpu⟩
        exact hx (List.mem_map.2 ⟨u, hu, of_decide_eq_true hpu⟩)
    rw [show dropDupKeepLast (x :: l) = x :: dropDupKeepLast l from by
        simp [dropDupKeepLast, hk]]
    rw [ih hl]

/-- One date fiber of a row list: its rows with the given date, in order. -/
def dFilter (d : Option Int) (l : List Tx) : List Tx :=
  l.filter (fun t => decide (t.date = d))

/-- A row in the fiber of the head with matching date. -/
theorem dFilter_cons_self {x : Tx} {d : Option Int} (h : x.date = d) (l : List Tx) :
    dFilter d (x :: l) = x :: dFilter d l := by
  simp [dFilter, h]

/-- A head row outside the fiber is dropped. -/
theorem dFilter_cons_ne {x : Tx} {d : Option Int} (h : ¬ x.date = d) (l : List Tx) :
    dFilter d (x :: l) = dFilter d l := by
  simp [dFilter, h]

/-- Fibers distribute over append. -/
theorem dFilter_append (d : Option Int) (l₁ l₂ : List Tx) :
    dFilter d (l₁ ++ l₂) = dFilter d l₁ ++ dFilter d l₂ := by
  simp [dFilter]

/-- Taking a fiber commutes with any other filter. -/
theorem dFilter_filter_comm (d : Option Int) (q : Tx → Bool) (l : List Tx) :
    dFilter d (l.filter q) = (dFilter d l).filter q := by
  simp only [dFilter]
  rw [List.filter_filter, List.filter_filter]
  exact List.filter_congr (fun a _ => by rw [Bool.and_comm])

/-- Rows with equal dates are mutually below each other in the date order. -/
theorem txLE_of_date_eq {a b : Tx} (h : a.date = b.date) : txLE a b := by
  rcases hb : b.date with _ | y
  · simp [txLE, dateLE, hb]
  · have ha := h.trans hb
    simp [txLE, dateLE, ha, hb]

/-- Ordered inserts of rows with distinct dates commute (stated for the
strictly earlier one first). -/
theorem orderedInsert_comm_of_strict (a x : Tx) (h1 : txLE a x) (h2 : ¬ txLE x a) :
    ∀ L : List Tx,
      List.orderedInsert txLE a (List.orderedInsert txLE x L)
        = List.orderedInsert txLE x (List.orderedInsert txLE a L) := by
  intro L
  induction L with
  | nil => simp [List.orderedInsert, h1, h2]
  | cons y L ih =>
    by_cases hay : txLE a y
    · by_cases hxy : txLE x y
      · simp [List.orderedInsert, hay, hxy, h1, h2]
      · simp [List.orderedInsert, hay, hxy, h2]
    · have hxy : ¬ txLE x y := fun hxy => hay (txLE_trans h1 hxy)
      simp [List.orderedInsert, hay, hxy, ih]

/-- Inserting a row whose date collides with nothing in the prefix can be
pulled out of the stable sort. -/
theorem insertionSort_middle (x : Tx) :
    ∀ (A B : List Tx), (∀ a ∈ A, a.date ≠ x.date) →
      List.insertionSort txLE (A ++ x :: B)
        = List.orderedInsert txLE x (List.insertionSort txLE (A ++ B)) := by
  intro A
  induction A with
  | nil => intro B _; rfl
  | cons a A ih =>
    intro B hA
    have hax : a.date ≠ x.date := hA a (List.mem_cons_self a A)
    have hstrict : (txLE a x ∧ ¬ txLE x a) ∨ (txLE x a ∧ ¬ txLE a x) := by
      rcases txLE_total a x with h | h
      · by_cases h' : txLE x a
        · exact absurd (txLE_tie h h') hax
        · exact Or.inl ⟨h, h'⟩
      · by_cases h' : txLE a x
        · exact absurd (txLE_tie h' h) hax
        · exact Or.inr ⟨h, h'⟩
    show List.insertionSort txLE (a :: (A ++ x :: B)) = _
    rw [show List.insertionSort txLE (a :: (A ++ x :: B))
          = List.orderedInsert txLE a (List.insertionSort txLE (A ++ x :: B)) from rfl,
        ih B (fun a' ha' => hA a' (List.mem_cons_of_mem a ha')),
        show ((a :: A) ++ B : List Tx) = a :: (A ++ B) from rfl,
        show List.insertionSort txLE (a :: (A ++ B))
          = List.orderedInsert txLE a (List.insertionSort txLE (A ++ B)) from rfl]
    rcases hstrict with ⟨h1, h2⟩ | ⟨h1, h2⟩
    · exact orderedInsert_comm_of_strict a x h1 h2 _
    · exact (orderedInsert_comm_of_strict x a h1 h2 _).symm

/-- Decomposition of a list along the head of one of its fibers. -/
theorem dFilter_eq_cons (d : Option Int) {l : List Tx} {a : Tx} {as : List Tx}
    (h : dFilter d l = a :: as) :
    ∃ l₁ l₂, l = l₁ ++ a :: l₂ ∧ (∀ b ∈ l₁, b.date ≠ d) ∧ a.date = d ∧ dFilter d l₂ = as := by
  obtain ⟨l₁, l₂, he, h₁, hpa, h₂⟩ := (List.filter_eq_cons_iff).1 h
  exact ⟨l₁, l₂, he, fun b hb => by simpa using h₁ b hb, by simpa using hpa, h₂⟩

/-- The stable sort is determined by the date fibers: two lists with the same
fibers (same rows with each date, in the same relative order) sort to the
same list. -/
theorem sort_congr_of_fibers :
    ∀ (X Y : List Tx), (∀ d, dFilter d X = dFilter d Y) →
      List.insertionSort txLE X = List.insertionSort txLE Y := by
  intro X
  induction X with
  | nil =>
    intro Y h
    cases Y with
    | nil => rfl
    | cons y Y' =>
      exfalso
      have hy := h y.date
      rw [dFilter_cons_self rfl] at hy
      exact absurd hy (by simp [dFilter])
  | cons x X' ih =>
    intro Y h
    have hx : dFilter x.date Y = x :: dFilter x.date X' := by
      rw [← h x.date, dFilter_cons_self rfl]
    obtain ⟨Y₁, Y₂, hYeq, hY₁, _, hY₂⟩ := dFilter_eq_cons x.date hx
    subst hYeq
    rw [insertionSort_middle x Y₁ Y₂ hY₁,
        show List.insertionSort txLE (x :: X')
          = List.orderedInsert txLE x (List.insertionSort txLE X') from rfl]
    have hfib : ∀ d, dFilter d X' = dFilter d (Y₁ ++ Y₂) := by
      intro d
      by_cases hd : d = x.date
      · subst hd
        have h1 : dFilter x.date Y₁ = [] :=
          List.filter_eq_nil_iff.2 (fun a ha => by simpa using hY₁ a ha)
        rw [dFilter_append, h1, List.nil_append, hY₂]
      · have hd' : ¬ x.date = d := fun he => hd he.symm
        have hdd := h d
        rw [dFilter_cons_ne hd', dFilter_append, dFilter_cons_ne hd'] at hdd
        rw [hdd, dFilter_append]
    rw [ih (Y₁ ++ Y₂) hfib]

/-- Fibers of an ordered insert: the inserted row lands at the front of its
own fiber and leaves every other fiber unchanged. -/
theorem dFilter_orderedInsert (x : Tx) (d : Option Int) :
    ∀ M : List Tx,
      dFilter d (List.orderedInsert txLE x M)
        = if x.date = d then x :: dFilter d M else dFilter d M := by
  intro M
  induction M with
  | nil =>
    by_cases hxd : x.date = d
    · rw [if_pos hxd]
      exact dFilter_cons_self hxd []
    · rw [if_neg hxd]
      exact dFilter_cons_ne hxd []
  | cons y M ih =>
    by_cases hxy : txLE x y
    · rw [show List.orderedInsert txLE x (y :: M) = x :: y :: M from by
          simp [List.orderedInsert, hxy]]
      by_cases hxd : x.date = d
      · rw [dFilter_cons_self hxd, if_pos hxd]
      · rw [dFilter_cons_ne hxd, if_neg hxd]
    · rw [show List.orderedInsert txLE x (y :: M) = y :: List.orderedInsert txLE x M from by
          simp [List.orderedInsert, hxy]]
      by_cases hyd : y.date = d
      · have hxd : ¬ x.date = d := fun he => hxy (txLE_of_date_eq (he.trans hyd.symm))
        rw [dFilter_cons_self hyd, ih]
        simp only [if_neg hxd]
        rw [dFilter_cons_self hyd]
      · by_cases hxd : x.date = d
        · rw [dFilter_cons_ne hyd, ih]
          simp only [if_pos hxd]
          rw [dFilter_cons_ne hyd]
        · rw [dFilter_cons_ne hyd, ih]
          simp only [if_neg hxd]
          rw [dFilter_cons_ne hyd]

/-- The stable sort preserves every date fiber. -/
theorem dFilter_sort (d : Option Int) : ∀ X : List Tx,
    dFilter d (List.insertionSort txLE X) = dFilter d X := by
  intro X
  induction X with
  | nil => rfl
  | cons x X' ih =>
    rw [show List.insertionSort txLE (x :: X')
          = List.orderedInsert txLE x (List.insertionSort txLE X') from rfl,
        dFilter_orderedInsert]
    by_cases hxd : x.date = d
    · rw [if_pos hxd, ih, dFilter_cons_self hxd]
    · rw [if_neg hxd, ih, dFilter_cons_ne hxd]

/-- Under the stable tie order fixed by `sortByDate`, merging the same batch
twice produces the same ledger, row order included, as merging it once: the
deduplication presents both sorts with the same rows in the same relative
order inside every date fiber, so the equality holds for every sort whose
output is determined by the date fibers.  The program's own quicksort has an
implementation-defined tie order, so for the program this establishes the
fiber agreement but not the literal row order; the row-order statement is a
property of the stable model only. -/
theorem mergeLedger_idempotent_stable_model (L B : List Tx) :
    mergeLedger (mergeLedger L B) B = mergeLedger L B := by
  have hSperm : List.Perm (sortByDate (dropDupKeepLast (L ++ B))) (dropDupKeepLast (L ++ B)) :=
    List.perm_insertionSort txLE _
  have hSkeys : ((sortByDate (dropDupKeepLast (L ++ B))).map txKey).Nodup :=
    (hSperm.map txKey).nodup_iff.2 (nodup_keys_dropDup (L ++ B))
  have hT : dropDupKeepLast (sortByDate (dropDupKeepLast (L ++ B)) ++ B)
      = (sortByDate (dropDupKeepLast (L ++ B))).filter (fun t => !keyIn t B)
        ++ dropDupKeepLast B := by
    rw [dropDup_append, dropDup_eq_self_of_nodup_keys hSkeys]
  have hfib : ∀ d, dFilter d (dropDupKeepLast (sortByDate (dropDupKeepLast (L ++ B)) ++ B))
      = dFilter d (dropDupKeepLast (L ++ B)) := by
    intro d
    rw [hT, dFilter_append, dFilter_filter_comm]
    rw [show dFilter d (sortByDate (dropDupKeepLast (L ++ B)))
          = dFilter d (dropDupKeepLast (L ++ B)) from dFilter_sort d _]
    rw [dropDup_append L B, dFilter_append, List.filter_append]
    have hFL : (dFilter d ((dropDupKeepLast L).filter (fun t => !keyIn t B))).filter
        (fun t => !keyIn t B) = dFilter d ((dropDupKeepLast L).filter (fun t => !keyIn t B)) := by
      apply List.filter_eq_self.2
      intro a ha
      have ha' : a ∈ (dropDupKeepLast L).filter (fun t => !keyIn t B) :=
        List.mem_of_mem_filter ha
      exact (List.mem_filter.1 ha').2
    have hDB : (dFilter d (dropDupKeepLast B)).filter (fun t => !keyIn t B) = [] := by
      apply List.filter_eq_nil_iff.2
      intro a ha
      have haB : a ∈ B := mem_of_mem_dropDup (List.mem_of_mem_filter ha)
      have hkey : keyIn a B = true := by
        unfold keyIn
        rw [List.any_eq_true]
        exact ⟨a, haB, by simp⟩
      simp [hkey]
    rw [hFL, hDB, List.append_nil]
  show sortByDate (dropDupKeepLast (sortByDate (dropDupKeepLast (L ++ B)) ++ B))
      = sortByDate (dropDupKeepLast (L ++ B))
  exact sort_congr_of_fibers _ _ hfib
